import Mathlib

/-!
A shallow embedding of the accounting-report pipeline of slurmacc.py
(rug-cit-hpc/slurmacc) and proofs about it.

The embedding follows the source function by function:

* `parse_args` options relevant to the core → `Options`;
* the month loop of `process_multiple` (pandas Periods, `start_time`
  comparison of Timestamps) → `monthLoop`, `monthIdx`, `monthStart`, `dateLe`;
* the merge of per-month series (`res.join(ser, how='outer')`,
  `fillna(0).astype(int)`, `res["Total"] = res.sum(axis=1)`, optional
  `sort_values(by="Total", ascending=False)`) → `outerJoin`, `mergeAll`,
  `fillCast`, `addTotal`, `finalizeMonthly`;
* `get_database_data` (latest affiliation per login, sentinel fill) →
  `resolveLatest`, `fillSentinels`;
* `combine` (left join on Login, grouping, summing, sorting) →
  `joinRows`, `groupSumsBy`, `combine`;
* `get_usage_data`, `process_jobs`, `process_single`, `main` →
  `getUsageData`, `processJobs`, `processSingle`, `mainResult`.

pandas `NaN` cells are modelled as `none`, numeric values as `Rat`,
`astype(int)` as truncation toward zero, and the `IndexError` raised by
`results.pop(0)` on an empty list as an `Option` returning `none`.
-/

namespace Slurmacc

variable {K A : Type}

/-- The command-line options of `parse_args` that the core pipeline reads. -/
structure Options where
  jobs : Bool
  cpuTime : Bool
  monthly : Bool
  user : Bool
  department : Bool
  faculty : Bool
  sort : Bool
deriving DecidableEq

/-- A calendar date: a pandas `Timestamp` at day precision. -/
structure Date where
  year : Nat
  month : Nat
  day : Nat
deriving DecidableEq

/-- `Timestamp` comparison `a <= b`: lexicographic on (year, month, day). -/
def dateLe (a b : Date) : Bool :=
  decide (a.year < b.year) ||
    (decide (a.year = b.year) &&
      (decide (a.month < b.month) ||
        (decide (a.month = b.month) && decide (a.day ≤ b.day))))

/-- `Timestamp` comparison `a < b`: lexicographic on (year, month, day). -/
def dateLt (a b : Date) : Bool :=
  decide (a.year < b.year) ||
    (decide (a.year = b.year) &&
      (decide (a.month < b.month) ||
        (decide (a.month = b.month) && decide (a.day < b.day))))

/-- `d.to_period(freq='M')` as an ordinal: the month count since year 0. -/
def monthIdx (d : Date) : Nat := 12 * d.year + (d.month - 1)

/-- `Period.start_time` of the month with the given ordinal:
the first day of that month. -/
def monthStart (i : Nat) : Date := ⟨i / 12, i % 12 + 1, 1⟩

/-- The `while` loop of `process_multiple`: emit the month ordinals starting
at the start date's month, while `(current_month+1).start_time <=
end_month.start_time` holds, i.e. while the next month still starts no later
than the end date's month does. -/
def monthLoop (cur eIdx : Nat) : List Nat :=
  if h : dateLe (monthStart (cur + 1)) (monthStart eIdx) = true then
    cur :: monthLoop (cur + 1) eIdx
  else
    []
termination_by eIdx - cur
decreasing_by
  simp only [dateLe, monthStart, Bool.or_eq_true, Bool.and_eq_true,
    decide_eq_true_eq] at h
  omega

/-- A per-month grouped series: grouping key to summed `Used` value. -/
abbrev MonthTable (K : Type) := List (K × Rat)

/-- A partially merged wide table: each row has one cell per month column
joined so far; `none` models a `NaN` produced by the outer join. -/
abbrev Frame (K : Type) := List (K × List (Option Rat))

/-- The index (key column) of a table. -/
def keysOf (t : List (K × A)) : List K := t.map Prod.fst

/-- Index lookup: the value of the first row with the given key. -/
def lookupKey [DecidableEq K] (k : K) : List (K × A) → Option A
  | [] => none
  | p :: rest => if p.1 = k then some p.2 else lookupKey k rest

/-- `pandas.Index.union`: the sorted union of two indexes. -/
def sortedUnion [DecidableEq K] [LinearOrder K] (l1 l2 : List K) : List K :=
  ((l1 ++ l2).dedup).insertionSort (· ≤ ·)

/-- One step `res = res.join(ser, how='outer')`; `n` is the number of month
columns already present in `acc`.  Keys present in only one side get `NaN`
(`none`) cells on the other side. -/
def outerJoin [DecidableEq K] [LinearOrder K] (n : Nat) (acc : Frame K)
    (t : MonthTable K) : Frame K :=
  (sortedUnion (keysOf acc) (keysOf t)).map fun k =>
    (k, ((lookupKey k acc).getD (List.replicate n none)) ++ [lookupKey k t])

/-- The first month's series as a one-column frame (`results.pop(0)`). -/
def initFrame (t : MonthTable K) : Frame K := t.map fun p => (p.1, [some p.2])

/-- The body of `for ser in results: res = res.join(ser, how='outer')`,
also counting the columns accumulated so far. -/
def mergeStep [DecidableEq K] [LinearOrder K] (acc : Frame K × Nat)
    (t : MonthTable K) : Frame K × Nat :=
  (outerJoin acc.2 acc.1 t, acc.2 + 1)

/-- `res = results.pop(0); for ser in results: res = res.join(ser, how='outer')`.
Merging an empty list of per-month results raises `IndexError` on `pop`;
that failure is modelled as `none`. -/
def mergeAll [DecidableEq K] [LinearOrder K] (ts : List (MonthTable K)) :
    Option (Frame K) :=
  match ts with
  | [] => none
  | t :: rest => some (rest.foldl mergeStep (initFrame t, 1)).1

/-- `astype(int)`: the numpy float-to-int cast truncates toward zero. -/
def truncRat (q : Rat) : Int := if 0 ≤ q then q.floor else q.ceil

/-- `res.fillna(0).astype(int)` applied to every month cell. -/
def fillCast (f : Frame K) : List (K × List Int) :=
  f.map fun p => (p.1, p.2.map fun c => truncRat (c.getD 0))

/-- `res["Total"] = res.sum(axis=1, numeric_only=True)`: the row-wise sum of
the month columns, appended to each row. -/
def addTotal (rows : List (K × List Int)) : List (K × (List Int × Int)) :=
  rows.map fun p => (p.1, (p.2, p.2.sum))

/-- `res.sort_values(by="Total", ascending=False)` when `options.sort` is set,
otherwise the merged order is kept. -/
def finalizeMonthly (sortFlag : Bool) (rows : List (K × (List Int × Int))) :
    List (K × (List Int × Int)) :=
  if sortFlag then rows.insertionSort (fun a b => b.2.2 ≤ a.2.2) else rows

/-- `process_multiple`, generic over the per-month data source `fetch`
(one grouped series per month ordinal). -/
def processMultiple [DecidableEq K] [LinearOrder K] (sortFlag : Bool)
    (s e : Date) (fetch : Nat → MonthTable K) :
    Option (List (K × (List Int × Int))) :=
  match mergeAll ((monthLoop (monthIdx s) (monthIdx e)).map fetch) with
  | none => none
  | some merged => some (finalizeMonthly sortFlag (addTotal (fillCast merged)))

/-- A usage record: one data row of the `sreport` cpu-time table. -/
structure UsageRow where
  login : String
  account : String
  used : Rat
deriving DecidableEq

/-- One row of the directory (SQL) query result; `Department` / `Faculty`
may be null, `StartDate` is the affiliation start (as an ordinal day). -/
structure DbRow where
  login : String
  name : String
  department : Option String
  faculty : Option String
  startDate : Nat
deriving DecidableEq

/-- A directory row after affiliation resolution and sentinel substitution:
department and faculty are always present. -/
structure ResolvedRow where
  login : String
  name : String
  department : String
  faculty : String
deriving DecidableEq

/-- The join of a usage row with an optional directory row; unmatched rows
keep `none` (pandas `NaN`) in the organisational fields. -/
structure CombinedRow where
  user : String
  account : String
  used : Rat
  name : Option String
  department : Option String
  faculty : Option String
deriving DecidableEq

/-- `drop_duplicates(subset=['Login'])`: keep the first row of each login. -/
def dropDupLogin : List DbRow → List DbRow
  | [] => []
  | r :: rest => r :: dropDupLogin (rest.filter fun x => decide (x.login ≠ r.login))
termination_by l => l.length
decreasing_by
  simp only [List.length_cons]
  exact Nat.lt_succ_of_le (List.length_filter_le _ _)

/-- `user_data.sort_values(by='StartDate', ascending=False)` followed by
`drop_duplicates(subset=['Login'])`: one row per login, with the latest
affiliation start. -/
def resolveLatest (db : List DbRow) : List DbRow :=
  dropDupLogin (db.insertionSort fun a b => b.startDate ≤ a.startDate)

/-- The `fillna` of `Department` / `Faculty` with the Unknown sentinels,
applied to the directory result (and only to it). -/
def fillSentinels (db : List DbRow) : List ResolvedRow :=
  db.map fun r =>
    ⟨r.login, r.name, r.department.getD "Unknown Department",
      r.faculty.getD "Unknown Faculty"⟩

/-- `get_database_data` after the SQL query: latest affiliation per login,
then sentinel substitution. -/
def getDatabaseData (db : List DbRow) : List ResolvedRow :=
  fillSentinels (resolveLatest db)

/-- One output row of the join: usage fields plus the matched directory
fields, or `none` fields when there was no match. -/
def combineRow (u : UsageRow) : Option ResolvedRow → CombinedRow
  | none => ⟨u.login, u.account, u.used, none, none, none⟩
  | some r => ⟨u.login, u.account, u.used, some r.name, some r.department, some r.faculty⟩

/-- `usage.set_index("Login").join(user.set_index("Login"))`: the pandas
left join on the index.  Every usage row is kept; a row whose login matches
several directory rows is repeated once per match. -/
def joinRows (usage : List UsageRow) (user : List ResolvedRow) : List CombinedRow :=
  usage.flatMap fun u =>
    let ms := user.filter fun r => decide (r.login = u.login)
    if ms.isEmpty then [combineRow u none] else ms.map fun r => combineRow u (some r)

/-- Sequence a list of optional cells: `none` exactly when some cell is null. -/
def seqOptions : List (Option A) → Option (List A)
  | [] => some []
  | none :: _ => none
  | some a :: rest => (seqOptions rest).map fun l => a :: l

/-- The grouping columns of the faculty/department branch of `combine`:
`Account`, then `Faculty` and/or `Department` if requested, then
`User, Name` if requested. -/
def optCols (o : Options) (r : CombinedRow) : List (Option String) :=
  [some r.account] ++ (if o.faculty then [r.faculty] else []) ++
    (if o.department then [r.department] else []) ++
    (if o.user then [some r.user, r.name] else [])

/-- The grouping columns of the monthly branch of `combine`. -/
def monthlyCols (r : CombinedRow) : List (Option String) :=
  [some r.account, some r.user, r.name, r.faculty, r.department]

/-- A row's group key in the faculty/department branch; `none` when any
grouping column is null (pandas `groupby` drops such rows). -/
def groupKeyOf (o : Options) (r : CombinedRow) : Option (List String) :=
  seqOptions (optCols o r)

/-- A row's group key in the monthly branch. -/
def monthlyKeyOf (r : CombinedRow) : Option (List String) :=
  seqOptions (monthlyCols r)

/-- `data.groupby(grouping)["Used"].sum()`: rows with a null group key are
dropped, the remaining rows are grouped by key, `Used` is summed within each
group, and the keys come out sorted. -/
def groupSumsBy (key : CombinedRow → Option (List String))
    (rows : List CombinedRow) : List (List String × Rat) :=
  let keyed := rows.filterMap fun r => (key r).map fun k => (k, r.used)
  let ks := ((keyed.map Prod.fst).dedup).insertionSort (· ≤ ·)
  ks.map fun k => (k, ((keyed.filter fun p => decide (p.1 = k)).map Prod.snd).sum)

/-- The result of `combine`: either a grouped series or the joined table
unchanged (the no-grouping branch). -/
inductive CombineResult where
  | grouped (t : List (List String × Rat))
  | plain (t : List CombinedRow)
deriving DecidableEq

/-- `data.sort_values(ascending=False)` on a grouped series. -/
def sortGrouped (t : List (List String × Rat)) : List (List String × Rat) :=
  t.insertionSort fun a b => b.2 ≤ a.2

/-- `combine`: group by the requested dimensions and sum, or (monthly branch)
group by all five columns, or return the joined table, optionally sorted by
value descending. -/
def combine (o : Options) (rows : List CombinedRow) : CombineResult :=
  if o.faculty || o.department then
    let t := groupSumsBy (groupKeyOf o) rows
    .grouped (if o.sort then sortGrouped t else t)
  else if o.monthly then
    .grouped (groupSumsBy monthlyKeyOf rows)
  else
    .plain (if o.sort then rows.insertionSort (fun a b => b.used ≤ a.used) else rows)

/-- A parsed `sreport` output row; `login` is `none` where the `Login`
column is null. -/
structure RawRow where
  login : Option String
  account : String
  used : Rat
deriving DecidableEq

/-- `get_usage_data` after `read_csv`: the cpu_time branch drops rows whose
`Login` is null; the jobs branch returns the parsed table unchanged. -/
def getUsageData (o : Options) (raw : List RawRow) : List RawRow :=
  if o.cpuTime then raw.filter fun r => r.login.isSome else raw

/-- `process_jobs`: returns `get_usage_data(options)` and nothing else. -/
def processJobs (o : Options) (raw : List RawRow) : List RawRow :=
  getUsageData o raw

/-- Typed view of the cpu-time usage table (all logins present). -/
def usageRowsOf (raw : List RawRow) : List UsageRow :=
  raw.map fun r => ⟨r.login.getD "", r.account, r.used⟩

/-- `process_single`: sreport data, directory data, `combine`. -/
def processSingle (o : Options) (raw : List RawRow) (db : List DbRow) : CombineResult :=
  combine o (joinRows (usageRowsOf (getUsageData o raw)) (getDatabaseData db))

/-- The per-month series built by the loop body of `process_multiple` from
that month's sreport and directory data.  In monthly mode `combine` always
returns a grouped series; the `plain` fallback is never reached there. -/
def monthSeries (o : Options) (raw : List RawRow) (db : List DbRow) :
    MonthTable (List String) :=
  match processSingle o raw db with
  | .grouped t => t
  | .plain rows => rows.map fun r => ([r.user], r.used)

/-- `process_multiple` wired to external collaborators: `rawOf`/`dbOf` give
the sreport and directory data for a (start, end) query. -/
def processMultipleFull (o : Options) (s e : Date)
    (rawOf : Date → Date → List RawRow) (dbOf : Date → Date → List DbRow) :
    Option (List (List String × (List Int × Int))) :=
  processMultiple o.sort s e fun m =>
    monthSeries o (rawOf (monthStart m) (monthStart (m + 1)))
      (dbOf (monthStart m) (monthStart (m + 1)))

/-- The value `main` passes to `output_data`, by branch. -/
inductive ProgramResult where
  | jobs (t : List RawRow)
  | monthly (t : Option (List (List String × (List Int × Int))))
  | single (t : CombineResult)
deriving DecidableEq

/-- `main`: dispatch on the jobs / monthly / single branches. -/
def mainResult (o : Options) (s e : Date)
    (rawOf : Date → Date → List RawRow) (dbOf : Date → Date → List DbRow) :
    ProgramResult :=
  if o.jobs then .jobs (processJobs o (rawOf s e))
  else if o.monthly then .monthly (processMultipleFull o s e rawOf dbOf)
  else .single (processSingle o (rawOf s e) (dbOf s e))

/-! ### The Windower: month boundaries -/

theorem monthStart_le_iff (a b : Nat) :
    dateLe (monthStart a) (monthStart b) = true ↔ a ≤ b := by
  simp only [dateLe, monthStart, Bool.or_eq_true, Bool.and_eq_true,
    decide_eq_true_eq]
  omega

theorem monthStart_lt_iff (a b : Nat) :
    dateLt (monthStart a) (monthStart b) = true ↔ a < b := by
  simp only [dateLt, monthStart, Bool.or_eq_true, Bool.and_eq_true,
    decide_eq_true_eq]
  omega

theorem monthLoop_eq_range (cur eIdx : Nat) :
    monthLoop cur eIdx = List.range' cur (eIdx - cur) := by
  have H : ∀ n c, eIdx - c = n → monthLoop c eIdx = List.range' c (eIdx - c) := by
    intro n
    induction n with
    | zero =>
      intro c hc
      unfold monthLoop
      split
      next h => exact absurd ((monthStart_le_iff (c + 1) eIdx).mp h) (by omega)
      next h =>
        rw [hc]
        rfl
    | succ k ih =>
      intro c hc
      unfold monthLoop
      split
      next h =>
        rw [ih (c + 1) (by omega)]
        have h3 : eIdx - c = (eIdx - (c + 1)) + 1 := by
          have := (monthStart_le_iff (c + 1) eIdx).mp h
          omega
        rw [h3, List.range'_succ]
      next h =>
        have h2 : ¬(c + 1 ≤ eIdx) := fun hco => h ((monthStart_le_iff (c + 1) eIdx).mpr hco)
        have h3 : eIdx - c = 0 := by omega
        rw [h3]
        rfl
  exact H _ cur rfl

/-- C3: for any start and end dates with at least one complete month between
them, the Windower produces exactly the consecutive calendar months starting
at the start date's month; a month is included iff its first day is strictly
before the first day of the end date's month. -/
theorem windower_months (s e : Date) (h : monthIdx s < monthIdx e) :
    monthLoop (monthIdx s) (monthIdx e) =
      List.range' (monthIdx s) (monthIdx e - monthIdx s) ∧
    ∀ m : Nat, m ∈ monthLoop (monthIdx s) (monthIdx e) ↔
      (monthIdx s ≤ m ∧ dateLt (monthStart m) (monthStart (monthIdx e)) = true) := by
  refine ⟨monthLoop_eq_range _ _, fun m => ?_⟩
  rw [monthLoop_eq_range, List.mem_range', monthStart_lt_iff]
  constructor
  · rintro ⟨i, hi, rfl⟩
    omega
  · rintro ⟨h1, h2⟩
    exact ⟨m - monthIdx s, by omega, by omega⟩

/-- Witness for `windower_months` at the spec's scenario: the window
2023-01-01 .. 2023-04-01 (January, February and March; April excluded). -/
theorem windower_months_witness :
    monthIdx ⟨2023, 1, 1⟩ < monthIdx ⟨2023, 4, 1⟩ ∧
    (monthLoop (monthIdx ⟨2023, 1, 1⟩) (monthIdx ⟨2023, 4, 1⟩) =
        List.range' (monthIdx ⟨2023, 1, 1⟩) (monthIdx ⟨2023, 4, 1⟩ - monthIdx ⟨2023, 1, 1⟩) ∧
      ∀ m : Nat, m ∈ monthLoop (monthIdx ⟨2023, 1, 1⟩) (monthIdx ⟨2023, 4, 1⟩) ↔
        (monthIdx ⟨2023, 1, 1⟩ ≤ m ∧
          dateLt (monthStart m) (monthStart (monthIdx ⟨2023, 4, 1⟩)) = true)) :=
  ⟨by decide, windower_months ⟨2023, 1, 1⟩ ⟨2023, 4, 1⟩ (by decide)⟩

/-! ### C9: a window with zero complete months -/

/-- C9 (counterexample to the claim as stated): for start and end dates in
the same month the month list is empty and `process_multiple` fails at
`results.pop(0)` (modelled by `none`); it does not return an empty table. -/
theorem empty_window_counterexample :
    monthLoop (monthIdx ⟨2023, 5, 3⟩) (monthIdx ⟨2023, 5, 20⟩) = [] ∧
    processMultiple false ⟨2023, 5, 3⟩ ⟨2023, 5, 20⟩ (fun _ => ([] : MonthTable Nat)) = none ∧
    (none : Option (List (Nat × (List Int × Int)))) ≠ some [] := by
  have hm : monthLoop (monthIdx ⟨2023, 5, 3⟩) (monthIdx ⟨2023, 5, 20⟩) = [] := by
    rw [monthLoop_eq_range]
    rfl
  refine ⟨hm, ?_, by decide⟩
  simp [processMultiple, hm, mergeAll]

/-- C9 (amended): when the overall period contains zero complete calendar
months, the merge is reached with an empty list of per-month results and the
windowed operation fails (the `IndexError` from `pop`, modelled by `none`)
instead of returning a table. -/
theorem empty_window_fails [DecidableEq K] [LinearOrder K] (sf : Bool) (s e : Date)
    (fetch : Nat → MonthTable K) (h : monthIdx e ≤ monthIdx s) :
    processMultiple sf s e fetch = none := by
  have hm : monthLoop (monthIdx s) (monthIdx e) = [] := by
    rw [monthLoop_eq_range]
    have h0 : monthIdx e - monthIdx s = 0 := by omega
    rw [h0]
    rfl
  simp [processMultiple, hm, mergeAll]

/-- Witness for `empty_window_fails`: start 2023-05-03, end 2023-05-20. -/
theorem empty_window_fails_witness :
    monthIdx ⟨2023, 5, 20⟩ ≤ monthIdx ⟨2023, 5, 3⟩ ∧
    processMultiple true ⟨2023, 5, 3⟩ ⟨2023, 5, 20⟩ (fun _ => ([] : MonthTable Nat)) = none :=
  ⟨by decide, empty_window_fails true ⟨2023, 5, 3⟩ ⟨2023, 5, 20⟩ _ (by decide)⟩

/-! ### Lookup and sorted-union lemmas -/

theorem lookupKey_eq_none [DecidableEq K] {k : K} {t : List (K × A)}
    (h : k ∉ keysOf t) : lookupKey k t = none := by
  induction t with
  | nil => rfl
  | cons p rest ih =>
    simp only [keysOf, List.map_cons, List.mem_cons, not_or] at h
    simp only [lookupKey, if_neg (fun hh : p.1 = k => h.1 hh.symm)]
    exact ih h.2

theorem lookupKey_of_mem [DecidableEq K] {t : List (K × A)}
    (hnd : (keysOf t).Nodup) {p : K × A} (hp : p ∈ t) :
    lookupKey p.1 t = some p.2 := by
  induction t with
  | nil => exact absurd hp (List.not_mem_nil p)
  | cons q rest ih =>
    simp only [keysOf, List.map_cons, List.nodup_cons] at hnd
    rcases List.mem_cons.mp hp with h | h
    · subst h
      simp [lookupKey]
    · have hne : q.1 ≠ p.1 := fun he => hnd.1 (he ▸ List.mem_map_of_mem Prod.fst h)
      simp only [lookupKey, if_neg hne]
      exact ih hnd.2 h

theorem mem_sortedUnion [DecidableEq K] [LinearOrder K] {l1 l2 : List K} {k : K} :
    k ∈ sortedUnion l1 l2 ↔ k ∈ l1 ∨ k ∈ l2 := by
  simp [sortedUnion, List.mem_insertionSort, List.mem_dedup]

theorem sortedUnion_sorted [DecidableEq K] [LinearOrder K] (l1 l2 : List K) :
    (sortedUnion l1 l2).Sorted (· < ·) := by
  have hs : (sortedUnion l1 l2).Sorted (· ≤ ·) := List.sorted_insertionSort _ _
  have hn : (sortedUnion l1 l2).Nodup :=
    ((List.perm_insertionSort _ _).nodup_iff).mpr (List.nodup_dedup (l1 ++ l2))
  exact hs.lt_of_le hn

theorem keysOf_outerJoin [DecidableEq K] [LinearOrder K] (n : Nat) (acc : Frame K)
    (t : MonthTable K) :
    keysOf (outerJoin n acc t) = sortedUnion (keysOf acc) (keysOf t) := by
  simp only [outerJoin, keysOf, List.map_map]
  rw [show (Prod.fst ∘ fun k : K =>
    (k, ((lookupKey k acc).getD (List.replicate n none)) ++ [lookupKey k t])) = id from rfl]
  exact List.map_id _

/-! ### The merge fold invariant -/

/-- Invariant of `for ser in results: res = res.join(ser, how='outer')`:
after the tables in `done` have been joined, the frame has nodup keys, each
row holds exactly the per-table lookups of its key, and the key set is the
union of the key sets of `done`. -/
theorem mergeFold_invariant [DecidableEq K] [LinearOrder K] :
    ∀ (rest : List (MonthTable K)) (acc : Frame K) (done : List (MonthTable K)),
      (keysOf acc).Nodup →
      (∀ p ∈ acc, p.2 = done.map fun t => lookupKey p.1 t) →
      (∀ k : K, k ∈ keysOf acc ↔ ∃ t ∈ done, k ∈ keysOf t) →
      ((keysOf (rest.foldl mergeStep (acc, done.length)).1).Nodup ∧
        (∀ p ∈ (rest.foldl mergeStep (acc, done.length)).1,
          p.2 = (done ++ rest).map fun t => lookupKey p.1 t) ∧
        (∀ k : K, k ∈ keysOf (rest.foldl mergeStep (acc, done.length)).1 ↔
          ∃ t ∈ done ++ rest, k ∈ keysOf t))
  | [], acc, done, h1, h2, h3 => by
    rw [List.foldl_nil, List.append_nil]
    exact ⟨h1, h2, h3⟩
  | t :: rest, acc, done, h1, h2, h3 => by
    have hjk : keysOf (outerJoin done.length acc t) = sortedUnion (keysOf acc) (keysOf t) :=
      keysOf_outerJoin _ _ _
    have h1' : (keysOf (outerJoin done.length acc t)).Nodup := by
      rw [hjk]
      exact (sortedUnion_sorted _ _).nodup
    have h2' : ∀ p ∈ outerJoin done.length acc t,
        p.2 = (done ++ [t]).map fun t2 => lookupKey p.1 t2 := by
      intro p hp
      obtain ⟨k, hk, rfl⟩ := List.mem_map.mp hp
      simp only [List.map_append, List.map_cons, List.map_nil]
      congr 1
      by_cases hmem : k ∈ keysOf acc
      · obtain ⟨q, hq, hfst⟩ := List.mem_map.mp hmem
        subst hfst
        rw [lookupKey_of_mem h1 hq, Option.getD_some]
        exact h2 q hq
      · rw [lookupKey_eq_none hmem, Option.getD_none]
        symm
        rw [List.eq_replicate_iff]
        refine ⟨by simp, ?_⟩
        intro b hb
        obtain ⟨t2, ht2, rfl⟩ := List.mem_map.mp hb
        apply lookupKey_eq_none
        intro hkt
        exact hmem ((h3 k).mpr ⟨t2, ht2, hkt⟩)
    have h3' : ∀ k : K, k ∈ keysOf (outerJoin done.length acc t) ↔
        ∃ t2 ∈ done ++ [t], k ∈ keysOf t2 := by
      intro k
      rw [hjk, mem_sortedUnion, h3]
      simp only [List.mem_append, List.mem_singleton]
      constructor
      · rintro (⟨t2, ht2, hk⟩ | hk)
        · exact ⟨t2, Or.inl ht2, hk⟩
        · exact ⟨t, Or.inr rfl, hk⟩
      · rintro ⟨t2, ht2 | rfl, hk⟩
        · exact Or.inl ⟨t2, ht2, hk⟩
        · exact Or.inr hk
    have hlen : (done ++ [t]).length = done.length + 1 := by simp
    have hres := mergeFold_invariant rest (outerJoin done.length acc t) (done ++ [t])
      h1' h2' h3'
    rw [hlen] at hres
    rw [List.foldl_cons]
    have happ : (done ++ [t]) ++ rest = done ++ t :: rest := by simp
    rw [happ] at hres
    exact hres

/-- `mergeAll` on a nonempty list of tables with nodup keys: the merged
frame has nodup keys, each row holds the per-table lookups of its key,
and the key set is the union of the inputs' key sets. -/
theorem mergeAll_spec [DecidableEq K] [LinearOrder K] {ts : List (MonthTable K)}
    (hnd : ∀ t ∈ ts, (keysOf t).Nodup) {merged : Frame K}
    (hm : mergeAll ts = some merged) :
    (keysOf merged).Nodup ∧
    (∀ p ∈ merged, p.2 = ts.map fun t => lookupKey p.1 t) ∧
    (∀ k : K, k ∈ keysOf merged ↔ ∃ t ∈ ts, k ∈ keysOf t) := by
  match ts, hm with
  | t :: rest, hm =>
    have hkeys : keysOf (initFrame t) = keysOf t := by
      simp [initFrame, keysOf, List.map_map, Function.comp]
    have h1 : (keysOf (initFrame t)).Nodup := by
      rw [hkeys]
      exact hnd t (List.mem_cons_self t rest)
    have h2 : ∀ p ∈ initFrame t, p.2 = [t].map fun t2 => lookupKey p.1 t2 := by
      intro p hp
      obtain ⟨q, hq, rfl⟩ := List.mem_map.mp hp
      simp only [List.map_cons, List.map_nil]
      rw [lookupKey_of_mem (hnd t (List.mem_cons_self t rest)) hq]
    have h3 : ∀ k : K, k ∈ keysOf (initFrame t) ↔ ∃ t2 ∈ [t], k ∈ keysOf t2 := by
      intro k
      rw [hkeys]
      simp
    have hres := mergeFold_invariant rest (initFrame t) [t] h1 h2 h3
    have hmerged : merged = (rest.foldl mergeStep (initFrame t, 1)).1 :=
      (Option.some_inj.mp hm).symm
    rw [hmerged]
    exact hres

theorem truncRat_zero : truncRat 0 = 0 := by decide

/-- C1: in the merged monthly table, every row's `Total` equals the row-wise
sum of the month cells, and the month cells are exactly (one per month, and
nothing else) the month values after filling missing cells with 0 and
truncating to an integer. -/
theorem monthly_total_correct [DecidableEq K] [LinearOrder K]
    (ts : List (MonthTable K)) (hnd : ∀ t ∈ ts, (keysOf t).Nodup)
    (merged : Frame K) (hm : mergeAll ts = some merged) :
    ∀ p ∈ addTotal (fillCast merged),
      p.2.2 = p.2.1.sum ∧
      p.2.1 = ts.map fun t => truncRat ((lookupKey p.1 t).getD 0) := by
  obtain ⟨-, hrows, -⟩ := mergeAll_spec hnd hm
  intro p hp
  simp only [addTotal, fillCast, List.map_map, List.mem_map, Function.comp_apply] at hp
  obtain ⟨q, hq, rfl⟩ := hp
  refine ⟨rfl, ?_⟩
  show q.2.map (fun c => truncRat (c.getD 0)) = _
  rw [hrows q hq, List.map_map]
  rfl

/-- Witness for `monthly_total_correct`: two months, a fractional value and
a key missing from one month. -/
theorem monthly_total_correct_witness :
    (∀ t ∈ ([[(1, (3 : Rat))], [(2, 2)]] : List (MonthTable Nat)), (keysOf t).Nodup) ∧
    mergeAll ([[(1, (3 : Rat))], [(2, 2)]] : List (MonthTable Nat)) =
      some [(1, [some ((3 : Rat)), none]), (2, [none, some 2])] ∧
    ∀ p ∈ addTotal (fillCast
        ([(1, [some ((3 : Rat)), none]), (2, [none, some 2])] : Frame Nat)),
      p.2.2 = p.2.1.sum ∧
      p.2.1 = ([[(1, (3 : Rat))], [(2, 2)]] : List (MonthTable Nat)).map fun t =>
        truncRat ((lookupKey p.1 t).getD 0) :=
  ⟨by decide, by decide, monthly_total_correct [[(1, (3 : Rat))], [(2, 2)]] (by decide)
    [(1, [some (3 : Rat), none]), (2, [none, some 2])] (by decide)⟩

/-- C2: the monthly merge is an outer join on the grouping key: the merged
key set is the union of the keys of all months, and a merged row carries the
integer 0 (present, not null) in every month column whose month did not
contain its key. -/
theorem monthly_merge_outer [DecidableEq K] [LinearOrder K]
    (ts : List (MonthTable K)) (hnd : ∀ t ∈ ts, (keysOf t).Nodup)
    (merged : Frame K) (hm : mergeAll ts = some merged) :
    (∀ k : K, k ∈ keysOf merged ↔ ∃ t ∈ ts, k ∈ keysOf t) ∧
    ∀ p ∈ fillCast merged, p.2.length = ts.length ∧
      ∀ i, (hi : i < ts.length) → p.1 ∉ keysOf ts[i] → p.2[i]? = some 0 := by
  obtain ⟨-, hrows, hkeys⟩ := mergeAll_spec hnd hm
  refine ⟨hkeys, ?_⟩
  intro p hp
  simp only [fillCast, List.mem_map] at hp
  obtain ⟨q, hq, rfl⟩ := hp
  rw [hrows q hq, List.map_map]
  constructor
  · simp
  · intro i hi hnotin
    rw [List.getElem?_map, List.getElem?_eq_getElem hi]
    simp [Function.comp, lookupKey_eq_none hnotin, truncRat_zero]

/-- Witness for `monthly_merge_outer`: key 5 appears only in month 1 and key
7 only in month 2; each gets a 0 cell in the other month. -/
theorem monthly_merge_outer_witness :
    (∀ t ∈ ([[(5, (4 : Rat))], [(7, 6)]] : List (MonthTable Nat)), (keysOf t).Nodup) ∧
    mergeAll ([[(5, (4 : Rat))], [(7, 6)]] : List (MonthTable Nat)) =
      some [(5, [some (4 : Rat), none]), (7, [none, some 6])] ∧
    ((∀ k : Nat, k ∈ keysOf ([(5, [some (4 : Rat), none]), (7, [none, some 6])] : Frame Nat) ↔
        ∃ t ∈ ([[(5, (4 : Rat))], [(7, 6)]] : List (MonthTable Nat)), k ∈ keysOf t) ∧
      ∀ p ∈ fillCast ([(5, [some (4 : Rat), none]), (7, [none, some 6])] : Frame Nat),
        p.2.length = ([[(5, (4 : Rat))], [(7, 6)]] : List (MonthTable Nat)).length ∧
        ∀ i, (hi : i < ([[(5, (4 : Rat))], [(7, 6)]] : List (MonthTable Nat)).length) →
          p.1 ∉ keysOf ([[(5, (4 : Rat))], [(7, 6)]] : List (MonthTable Nat))[i] →
          p.2[i]? = some 0) :=
  ⟨by decide, by decide, monthly_merge_outer [[(5, (4 : Rat))], [(7, 6)]] (by decide)
    [(5, [some (4 : Rat), none]), (7, [none, some 6])] (by decide)⟩

/-! ### C8: sorting -/

theorem mergeFold_sorted [DecidableEq K] [LinearOrder K] :
    ∀ (rest : List (MonthTable K)) (acc : Frame K) (n : Nat),
      (keysOf acc).Sorted (· < ·) →
      (keysOf (rest.foldl mergeStep (acc, n)).1).Sorted (· < ·)
  | [], _, _, h => h
  | t :: rest, acc, n, _ => by
    rw [List.foldl_cons]
    exact mergeFold_sorted rest (outerJoin n acc t) (n + 1) (by
      rw [keysOf_outerJoin]
      exact sortedUnion_sorted _ _)

theorem mergeAll_sorted [DecidableEq K] [LinearOrder K] {ts : List (MonthTable K)}
    (hs : ∀ t ∈ ts, (keysOf t).Sorted (· < ·)) {merged : Frame K}
    (hm : mergeAll ts = some merged) : (keysOf merged).Sorted (· < ·) := by
  match ts, hm with
  | t :: rest, hm =>
    have hkeys : keysOf (initFrame t) = keysOf t := by
      simp only [initFrame, keysOf, List.map_map]
      rw [show (Prod.fst ∘ fun p : K × Rat => (p.1, [some p.2])) = Prod.fst from rfl]
    have hmerged : merged = (rest.foldl mergeStep (initFrame t, 1)).1 :=
      (Option.some_inj.mp hm).symm
    rw [hmerged]
    exact mergeFold_sorted rest (initFrame t) 1
      (hkeys ▸ hs t (List.mem_cons_self t rest))

theorem keysOf_addTotal_fillCast [DecidableEq K] (merged : Frame K) :
    keysOf (addTotal (fillCast merged)) = keysOf merged := by
  simp only [addTotal, fillCast, keysOf, List.map_map]
  rfl

/-- C8: if `sortByValue` is set the monthly rows come out in non-increasing
order of `Total`, whatever the per-month tables look like (in particular
also when `combine` value-sorted each month's series); sorting only
permutes the rows and changes no summed value.  If it is not set, the rows
stay in the merged order, and — since without `-o` each month's series
comes out of groupby key-sorted — the merged keys are strictly sorted,
a deterministic, reproducible order.  The same non-increasing/permutation
facts hold for the descending value sort of a grouped series in `combine`
(`sortGrouped`). -/
theorem sorting_behaviour [DecidableEq K] [LinearOrder K]
    (ts : List (MonthTable K))
    (merged : Frame K) (hm : mergeAll ts = some merged) (sortFlag : Bool)
    (g : List (List String × Rat)) :
    (sortFlag = true →
      (finalizeMonthly sortFlag (addTotal (fillCast merged))).Sorted
        (fun a b => b.2.2 ≤ a.2.2)) ∧
    (finalizeMonthly sortFlag (addTotal (fillCast merged))).Perm
      (addTotal (fillCast merged)) ∧
    (sortFlag = false →
      finalizeMonthly sortFlag (addTotal (fillCast merged)) =
        addTotal (fillCast merged) ∧
      ((∀ t ∈ ts, (keysOf t).Sorted (· < ·)) →
        (keysOf (addTotal (fillCast merged))).Sorted (· < ·))) ∧
    (sortGrouped g).Sorted (fun a b => b.2 ≤ a.2) ∧
    (sortGrouped g).Perm g := by
  haveI ht1 : IsTotal (K × List Int × Int) (fun a b => b.2.2 ≤ a.2.2) :=
    ⟨fun a b => le_total b.2.2 a.2.2⟩
  haveI ht2 : IsTrans (K × List Int × Int) (fun a b => b.2.2 ≤ a.2.2) :=
    ⟨fun _ _ _ h1 h2 => le_trans h2 h1⟩
  haveI hg1 : IsTotal (List String × Rat) (fun a b => b.2 ≤ a.2) :=
    ⟨fun a b => le_total b.2 a.2⟩
  haveI hg2 : IsTrans (List String × Rat) (fun a b => b.2 ≤ a.2) :=
    ⟨fun _ _ _ h1 h2 => le_trans h2 h1⟩
  refine ⟨?_, ?_, ?_, ?_, ?_⟩
  · rintro rfl
    simp only [finalizeMonthly, if_pos]
    exact List.sorted_insertionSort _ _
  · cases sortFlag
    · simp [finalizeMonthly]
    · simp only [finalizeMonthly, if_pos]
      exact List.perm_insertionSort _ _
  · rintro rfl
    refine ⟨by simp [finalizeMonthly], fun hs => ?_⟩
    rw [keysOf_addTotal_fillCast]
    exact mergeAll_sorted hs hm
  · exact List.sorted_insertionSort _ _
  · exact List.perm_insertionSort _ _

/-- Witness for `sorting_behaviour` with the sort flag set, at per-month
tables that a value-sorting `combine` would produce: the first month's keys
are not in key order, as after `-m` with `-d`/`-f` and `-o`. -/
theorem sorting_behaviour_witness :
    mergeAll ([[(2, (5 : Rat)), (1, 4)], [(1, (9 : Rat))]] : List (MonthTable Nat)) =
      some [(1, [some (4 : Rat), some 9]), (2, [some (5 : Rat), none])] ∧
    ((true = true →
      (finalizeMonthly true (addTotal (fillCast
          ([(1, [some (4 : Rat), some 9]), (2, [some (5 : Rat), none])] : Frame Nat)))).Sorted
        (fun a b => b.2.2 ≤ a.2.2)) ∧
    (finalizeMonthly true (addTotal (fillCast
        ([(1, [some (4 : Rat), some 9]), (2, [some (5 : Rat), none])] : Frame Nat)))).Perm
      (addTotal (fillCast
        ([(1, [some (4 : Rat), some 9]), (2, [some (5 : Rat), none])] : Frame Nat))) ∧
    (true = false →
      finalizeMonthly true (addTotal (fillCast
          ([(1, [some (4 : Rat), some 9]), (2, [some (5 : Rat), none])] : Frame Nat))) =
        addTotal (fillCast
          ([(1, [some (4 : Rat), some 9]), (2, [some (5 : Rat), none])] : Frame Nat)) ∧
      ((∀ t ∈ ([[(2, (5 : Rat)), (1, 4)], [(1, (9 : Rat))]] : List (MonthTable Nat)),
          (keysOf t).Sorted (· < ·)) →
        (keysOf (addTotal (fillCast
          ([(1, [some (4 : Rat), some 9]), (2, [some (5 : Rat), none])] : Frame Nat)))).Sorted
          (· < ·))) ∧
    (sortGrouped [(["a"], (2 : Rat))]).Sorted (fun a b => b.2 ≤ a.2) ∧
    (sortGrouped [(["a"], (2 : Rat))]).Perm [(["a"], (2 : Rat))]) :=
  ⟨by decide,
    sorting_behaviour [[(2, (5 : Rat)), (1, 4)], [(1, (9 : Rat))]]
    [(1, [some (4 : Rat), some 9]), (2, [some (5 : Rat), none])] (by decide) true
    [(["a"], (2 : Rat))]⟩

/-! ### C4 / C6: the left join on Login -/

theorem joinRows_cons (u : UsageRow) (rest : List UsageRow) (user : List ResolvedRow) :
    joinRows (u :: rest) user =
      (let ms := user.filter fun r => decide (r.login = u.login)
       if ms.isEmpty then [combineRow u none] else ms.map fun r => combineRow u (some r)) ++
        joinRows rest user := rfl

theorem filter_login_eq_find (user : List ResolvedRow) (l : String)
    (h : (user.map fun r => r.login).Nodup) :
    user.filter (fun r => decide (r.login = l)) =
      (user.find? fun r => decide (r.login = l)).toList := by
  induction user with
  | nil => rfl
  | cons r rest ih =>
    simp only [List.map_cons, List.nodup_cons] at h
    by_cases hr : r.login = l
    · rw [List.filter_cons_of_pos (by simpa using hr),
        List.find?_cons_of_pos _ (by simpa using hr)]
      have hnil : rest.filter (fun x => decide (x.login = l)) = [] := by
        rw [List.filter_eq_nil_iff]
        intro x hx
        simp only [decide_eq_true_eq]
        intro hxl
        exact h.1 (List.mem_map.mpr ⟨x, hx, by rw [hxl, hr]⟩)
      rw [hnil]
      rfl
    · rw [List.filter_cons_of_neg (by simpa using hr),
        List.find?_cons_of_neg _ (by simpa using hr)]
      exact ih h.2

theorem joinRows_eq_map (usage : List UsageRow) (user : List ResolvedRow)
    (h : (user.map fun r => r.login).Nodup) :
    joinRows usage user =
      usage.map fun u => combineRow u (user.find? fun r => decide (r.login = u.login)) := by
  induction usage with
  | nil => rfl
  | cons u rest ih =>
    rw [joinRows_cons, List.map_cons, ih]
    rw [filter_login_eq_find user u.login h]
    cases hf : user.find? fun r => decide (r.login = u.login) with
    | none => rfl
    | some r => rfl

/-- C4: with the directory resolved to one record per login, the join is a
per-row left outer join keyed by login: each usage row produces exactly the
row combining it with its (optional) directory match, so the output has
exactly as many rows as the usage input — none dropped, none duplicated. -/
theorem join_cardinality (usage : List UsageRow) (user : List ResolvedRow)
    (h : (user.map fun r => r.login).Nodup) :
    joinRows usage user =
      (usage.map fun u => combineRow u (user.find? fun r => decide (r.login = u.login))) ∧
    (joinRows usage user).length = usage.length := by
  refine ⟨joinRows_eq_map usage user h, ?_⟩
  rw [joinRows_eq_map usage user h, List.length_map]

/-- Witness for `join_cardinality`: two usage rows, one matching login. -/
theorem join_cardinality_witness :
    (([⟨"bob", "Bob B", "D", "F"⟩] : List ResolvedRow).map fun r => r.login).Nodup ∧
    (joinRows [⟨"bob", "X", (120 : Rat)⟩, ⟨"eve", "X", 7⟩] [⟨"bob", "Bob B", "D", "F"⟩] =
      (([⟨"bob", "X", (120 : Rat)⟩, ⟨"eve", "X", 7⟩] : List UsageRow).map fun u =>
        combineRow u (([⟨"bob", "Bob B", "D", "F"⟩] : List ResolvedRow).find?
          fun r => decide (r.login = u.login))) ∧
    (joinRows [⟨"bob", "X", (120 : Rat)⟩, ⟨"eve", "X", 7⟩]
        [⟨"bob", "Bob B", "D", "F"⟩]).length =
      ([⟨"bob", "X", (120 : Rat)⟩, ⟨"eve", "X", 7⟩] : List UsageRow).length) :=
  ⟨by decide, join_cardinality [⟨"bob", "X", (120 : Rat)⟩, ⟨"eve", "X", 7⟩]
    [⟨"bob", "Bob B", "D", "F"⟩] (by decide)⟩

/-- C6 (counterexample to the claim as stated): a login absent from the
directory result appears in the combined output with null (`none`)
department and faculty, not with the Unknown sentinels. -/
theorem join_missing_login_counterexample :
    joinRows [⟨"alice", "acc1", (5 : Rat)⟩] [] =
      [⟨"alice", "acc1", (5 : Rat), none, none, none⟩] ∧
    ((none : Option String) ≠ some "Unknown Department") ∧
    ((none : Option String) ≠ some "Unknown Faculty") :=
  ⟨rfl, by decide, by decide⟩

/-- C6 (amended): a login present in the usage data but absent from the
directory result still appears in the combined output — the left join keeps
its row — but with null name, department and faculty fields; the Unknown
sentinels are substituted only inside the directory result, before the join. -/
theorem join_missing_login (usage : List UsageRow) (user : List ResolvedRow)
    (u : UsageRow) (hu : u ∈ usage)
    (habs : u.login ∉ user.map fun r => r.login) :
    combineRow u none ∈ joinRows usage user ∧
    (combineRow u none).name = none ∧
    (combineRow u none).department = none ∧
    (combineRow u none).faculty = none := by
  have hfil : user.filter (fun r => decide (r.login = u.login)) = [] := by
    rw [List.filter_eq_nil_iff]
    intro r hr
    simp only [decide_eq_true_eq]
    intro hrl
    exact habs (List.mem_map.mpr ⟨r, hr, hrl⟩)
  refine ⟨?_, rfl, rfl, rfl⟩
  have : combineRow u none ∈
      (let ms := user.filter fun r => decide (r.login = u.login)
       if ms.isEmpty then [combineRow u none] else ms.map fun r => combineRow u (some r)) := by
    rw [hfil]
    exact List.mem_singleton.mpr rfl
  exact List.mem_flatMap.mpr ⟨u, hu, this⟩

/-- Witness for `join_missing_login`: login carol has no directory row. -/
theorem join_missing_login_witness :
    (⟨"carol", "Y", (3 : Rat)⟩ : UsageRow) ∈ ([⟨"carol", "Y", (3 : Rat)⟩] : List UsageRow) ∧
    (⟨"carol", "Y", (3 : Rat)⟩ : UsageRow).login ∉
      (([⟨"bob", "Bob B", "D", "F"⟩] : List ResolvedRow).map fun r => r.login) ∧
    (combineRow ⟨"carol", "Y", (3 : Rat)⟩ none ∈
        joinRows [⟨"carol", "Y", (3 : Rat)⟩] [⟨"bob", "Bob B", "D", "F"⟩] ∧
      (combineRow (⟨"carol", "Y", (3 : Rat)⟩ : UsageRow) none).name = none ∧
      (combineRow (⟨"carol", "Y", (3 : Rat)⟩ : UsageRow) none).department = none ∧
      (combineRow (⟨"carol", "Y", (3 : Rat)⟩ : UsageRow) none).faculty = none) :=
  ⟨by decide, by decide,
    join_missing_login [⟨"carol", "Y", (3 : Rat)⟩] [⟨"bob", "Bob B", "D", "F"⟩]
      ⟨"carol", "Y", (3 : Rat)⟩ (by decide) (by decide)⟩

/-! ### C5: affiliation resolution -/

theorem dropDupLogin_subset : ∀ l : List DbRow, dropDupLogin l ⊆ l
  | [] => by
    unfold dropDupLogin
    exact fun x hx => hx
  | r :: rest => by
    unfold dropDupLogin
    intro x hx
    rcases List.mem_cons.mp hx with h | h
    · exact h ▸ List.mem_cons_self _ _
    · exact List.mem_cons_of_mem _
        (List.mem_of_mem_filter (dropDupLogin_subset _ h))
termination_by l => l.length
decreasing_by
  simp only [List.length_cons]
  exact Nat.lt_succ_of_le (List.length_filter_le _ _)

theorem dropDupLogin_logins_nodup : ∀ l : List DbRow,
    ((dropDupLogin l).map fun r => r.login).Nodup
  | [] => by
    unfold dropDupLogin
    simp
  | r :: rest => by
    unfold dropDupLogin
    simp only [List.map_cons, List.nodup_cons]
    refine ⟨?_, dropDupLogin_logins_nodup _⟩
    intro hmem
    obtain ⟨x, hx, hxl⟩ := List.mem_map.mp hmem
    have hx2 := dropDupLogin_subset _ hx
    have hxp := List.of_mem_filter hx2
    simp only [decide_eq_true_eq] at hxp
    exact hxp hxl
termination_by l => l.length
decreasing_by
  simp only [List.length_cons]
  exact Nat.lt_succ_of_le (List.length_filter_le _ _)

theorem dropDupLogin_complete : ∀ (l : List DbRow) (s : String),
    s ∈ l.map (fun r => r.login) → s ∈ (dropDupLogin l).map fun r => r.login
  | [], s, h => absurd h (by simp)
  | r :: rest, s, h => by
    unfold dropDupLogin
    simp only [List.map_cons, List.mem_cons] at h ⊢
    rcases h with h | h
    · exact Or.inl h
    · by_cases hsr : s = r.login
      · exact Or.inl hsr
      · refine Or.inr (dropDupLogin_complete _ s ?_)
        obtain ⟨x, hx, hxl⟩ := List.mem_map.mp h
        refine List.mem_map.mpr ⟨x, List.mem_filter.mpr ⟨hx, ?_⟩, hxl⟩
        simp only [decide_eq_true_eq]
        rw [hxl]
        exact hsr
termination_by l => l.length
decreasing_by
  simp only [List.length_cons]
  exact Nat.lt_succ_of_le (List.length_filter_le _ _)

theorem dropDupLogin_max : ∀ l : List DbRow,
    l.Pairwise (fun a b => b.startDate ≤ a.startDate) →
    ∀ r ∈ dropDupLogin l, ∀ c ∈ l, c.login = r.login → c.startDate ≤ r.startDate
  | [], _, r, hr => by
    unfold dropDupLogin at hr
    exact absurd hr (List.not_mem_nil r)
  | a :: rest, hp, r, hr => by
    unfold dropDupLogin at hr
    rw [List.pairwise_cons] at hp
    rcases List.mem_cons.mp hr with h | h
    · subst h
      intro c hc hcl
      rcases List.mem_cons.mp hc with h2 | h2
      · exact le_of_eq (congrArg DbRow.startDate h2)
      · exact hp.1 c h2
    · intro c hc hcl
      have hrrest : r ∈ rest.filter fun x => decide (x.login ≠ a.login) :=
        dropDupLogin_subset _ h
      have hrl : r.login ≠ a.login := by
        have := List.of_mem_filter hrrest
        simpa using this
      rcases List.mem_cons.mp hc with h2 | h2
      · exact absurd (h2 ▸ hcl) fun he => hrl he.symm
      · have hcf : c ∈ rest.filter fun x => decide (x.login ≠ a.login) :=
          List.mem_filter.mpr ⟨h2, by simp only [decide_eq_true_eq]; rw [hcl]; exact hrl⟩
        exact dropDupLogin_max _ (hp.2.filter _) r h c hcf hcl
termination_by l => l.length
decreasing_by
  simp only [List.length_cons]
  exact Nat.lt_succ_of_le (List.length_filter_le _ _)

/-- C5: affiliation resolution keeps exactly one record per login (its login
set covers every input login and has no duplicates), every kept record comes
from the input, and its affiliationStart is maximal among that login's
candidates.  The resolution is a pure function of the input list, hence
deterministic; in this model the descending sort is stable, so ties go to
the earlier input row. -/
theorem affiliation_resolution (db : List DbRow) :
    ((resolveLatest db).map fun r => r.login).Nodup ∧
    (∀ r ∈ resolveLatest db, r ∈ db) ∧
    (∀ s : String, s ∈ db.map (fun r => r.login) →
      ∃ r ∈ resolveLatest db, r.login = s) ∧
    (∀ r ∈ resolveLatest db, ∀ c ∈ db, c.login = r.login →
      c.startDate ≤ r.startDate) := by
  haveI : IsTotal DbRow (fun a b => b.startDate ≤ a.startDate) :=
    ⟨fun a b => le_total b.startDate a.startDate⟩
  haveI : IsTrans DbRow (fun a b => b.startDate ≤ a.startDate) :=
    ⟨fun _ _ _ h1 h2 => le_trans h2 h1⟩
  have hperm : (db.insertionSort fun a b => b.startDate ≤ a.startDate).Perm db :=
    List.perm_insertionSort _ _
  have hsorted : (db.insertionSort fun a b => b.startDate ≤ a.startDate).Pairwise
      (fun a b => b.startDate ≤ a.startDate) := List.sorted_insertionSort _ _
  refine ⟨dropDupLogin_logins_nodup _, ?_, ?_, ?_⟩
  · intro r hr
    exact hperm.mem_iff.mp (dropDupLogin_subset _ hr)
  · intro s hs
    have hs2 : s ∈ (db.insertionSort fun a b => b.startDate ≤ a.startDate).map
        (fun r => r.login) :=
      ((hperm.map fun r => r.login).mem_iff).mpr hs
    obtain ⟨r, hr, hrl⟩ := List.mem_map.mp (dropDupLogin_complete _ s hs2)
    exact ⟨r, hr, hrl⟩
  · intro r hr c hc hcl
    exact dropDupLogin_max _ hsorted r hr c (hperm.mem_iff.mpr hc) hcl

/-! ### C7: aggregation conservation -/

theorem sum_map_add {B : Type} (f g : B → Rat) :
    ∀ ks : List B, (ks.map fun k => f k + g k).sum = (ks.map f).sum + (ks.map g).sum
  | [] => by simp
  | k :: ks => by
    simp only [List.map_cons, List.sum_cons, sum_map_add f g ks]
    ring

theorem sum_map_ite_zero {B : Type} [DecidableEq B] (x : Rat) (a : B) :
    ∀ ks : List B, a ∉ ks → (ks.map fun k => if k = a then x else 0).sum = 0
  | [], _ => rfl
  | k :: ks, h => by
    simp only [List.mem_cons, not_or] at h
    rw [List.map_cons, List.sum_cons, if_neg fun he => h.1 he.symm,
      sum_map_ite_zero x a ks h.2, add_zero]

theorem sum_map_ite {B : Type} [DecidableEq B] (x : Rat) (a : B) :
    ∀ ks : List B, ks.Nodup → a ∈ ks → (ks.map fun k => if k = a then x else 0).sum = x
  | [], _, h => absurd h (List.not_mem_nil a)
  | k :: ks, hnd, h => by
    simp only [List.nodup_cons] at hnd
    rcases List.mem_cons.mp h with h1 | h1
    · subst h1
      rw [List.map_cons, List.sum_cons, if_pos rfl,
        sum_map_ite_zero x a ks hnd.1, add_zero]
    · have hka : k ≠ a := fun he => hnd.1 (he ▸ h1)
      rw [List.map_cons, List.sum_cons, if_neg hka,
        sum_map_ite x a ks hnd.2 h1, zero_add]

theorem sum_fiber {B C : Type} [DecidableEq C] (g : B → Rat) (keyf : B → C) :
    ∀ (rows : List B) (ks : List C), ks.Nodup → (∀ r ∈ rows, keyf r ∈ ks) →
      (ks.map fun k => ((rows.filter fun r => decide (keyf r = k)).map g).sum).sum =
        (rows.map g).sum
  | [], ks, _, _ => by simp
  | r :: rows, ks, hnd, hcov => by
    have hstep : ∀ k : C,
        (((r :: rows).filter fun r2 => decide (keyf r2 = k)).map g).sum =
          (if k = keyf r then g r else 0) +
            ((rows.filter fun r2 => decide (keyf r2 = k)).map g).sum := by
      intro k
      by_cases hk : keyf r = k
      · rw [List.filter_cons_of_pos (by simpa using hk), if_pos hk.symm]
        simp
      · rw [List.filter_cons_of_neg (by simpa using hk), if_neg fun he => hk he.symm,
          zero_add]
    calc (ks.map fun k => (((r :: rows).filter fun r2 => decide (keyf r2 = k)).map g).sum).sum
        = (ks.map fun k => (if k = keyf r then g r else 0) +
            ((rows.filter fun r2 => decide (keyf r2 = k)).map g).sum).sum := by
          rw [List.map_congr_left fun k _ => hstep k]
      _ = (ks.map fun k => if k = keyf r then g r else 0).sum +
            (ks.map fun k => ((rows.filter fun r2 => decide (keyf r2 = k)).map g).sum).sum :=
          sum_map_add _ _ ks
      _ = g r + (rows.map g).sum := by
          rw [sum_map_ite (g r) (keyf r) ks hnd (hcov r (List.mem_cons_self _ _)),
            sum_fiber g keyf rows ks hnd fun x hx => hcov x (List.mem_cons_of_mem _ hx)]
      _ = ((r :: rows).map g).sum := by simp

theorem map_snd_keyval {C D : Type} (f : C → D) (ks : List C) :
    (ks.map fun k => (k, f k)).map Prod.snd = ks.map f := by
  rw [List.map_map]
  rfl

theorem keyed_snd_sum (key : CombinedRow → Option (List String)) :
    ∀ rows : List CombinedRow, (∀ r ∈ rows, (key r).isSome) →
      ((rows.filterMap fun r => (key r).map fun k => (k, r.used)).map Prod.snd).sum =
        (rows.map fun r => r.used).sum
  | [], _ => rfl
  | r :: rows, h => by
    obtain ⟨k, hk⟩ := Option.isSome_iff_exists.mp (h r (List.mem_cons_self _ _))
    simp only [List.filterMap_cons, hk, Option.map_some']
    simp only [List.map_cons, List.sum_cons]
    rw [keyed_snd_sum key rows fun x hx => h x (List.mem_cons_of_mem _ hx)]

/-- C7 (amended): when every input row's grouping fields are non-null, the
sum of the per-group sums equals the sum of usedAmount over all input rows,
for any grouping key.  (A row with a null grouping field is dropped by the
grouping, which breaks conservation — see the counterexample.) -/
theorem aggregation_sum_conserved (key : CombinedRow → Option (List String))
    (rows : List CombinedRow) (h : ∀ r ∈ rows, (key r).isSome) :
    ((groupSumsBy key rows).map Prod.snd).sum = (rows.map fun r => r.used).sum := by
  simp only [groupSumsBy]
  rw [map_snd_keyval]
  refine (sum_fiber Prod.snd Prod.fst _ _ ?_ ?_).trans (keyed_snd_sum key rows h)
  · exact ((List.perm_insertionSort _ _).nodup_iff).mpr (List.nodup_dedup _)
  · intro p hp
    exact (List.mem_insertionSort _).mpr (List.mem_dedup.mpr (List.mem_map_of_mem Prod.fst hp))

/-- Witness for `aggregation_sum_conserved`: one fully populated row grouped
by account and department. -/
theorem aggregation_sum_conserved_witness :
    (∀ r ∈ ([⟨"u1", "acc", (5 : Rat), some "N", some "D", some "F"⟩] : List CombinedRow),
      (groupKeyOf ⟨false, false, false, false, true, false, false⟩ r).isSome) ∧
    ((groupSumsBy (groupKeyOf ⟨false, false, false, false, true, false, false⟩)
        [⟨"u1", "acc", (5 : Rat), some "N", some "D", some "F"⟩]).map Prod.snd).sum =
      (([⟨"u1", "acc", (5 : Rat), some "N", some "D", some "F"⟩] : List CombinedRow).map
        fun r => r.used).sum :=
  ⟨by decide, aggregation_sum_conserved _ _ (by decide)⟩

/-- C7 (counterexample to the claim as stated): a combined row whose
department is null (its login was absent from the directory) is dropped by
grouping on department, so the groups sum to 0 while the input sums to 5. -/
theorem aggregation_drop_counterexample :
    groupSumsBy (groupKeyOf ⟨false, false, false, false, true, false, false⟩)
      [⟨"u1", "acc", (5 : Rat), none, none, none⟩] = [] ∧
    (([⟨"u1", "acc", (5 : Rat), none, none, none⟩] : List CombinedRow).map
      fun r => r.used).sum = 5 ∧
    (([] : List (List String × Rat)).map Prod.snd).sum = 0 ∧
    (0 : Rat) ≠ 5 :=
  ⟨rfl, by simp, rfl, by decide⟩

/-! ### C10: the jobs branch -/

/-- C10: in jobs mode (argument validation makes `-j` and `-c` mutually
exclusive, so cpu_time is off) main returns the parsed usage table
unchanged: the directory collaborator is never consulted (the result does
not depend on it) and the user/department/faculty/sort/monthly options have
no effect on the result. -/
theorem jobs_passthrough (o o2 : Options) (s e : Date)
    (rawOf : Date → Date → List RawRow) (dbOf dbOf2 : Date → Date → List DbRow)
    (hj : o.jobs = true) (hc : o.cpuTime = false)
    (hj2 : o2.jobs = true) (hc2 : o2.cpuTime = false) :
    mainResult o s e rawOf dbOf = ProgramResult.jobs (rawOf s e) ∧
    mainResult o2 s e rawOf dbOf2 = mainResult o s e rawOf dbOf := by
  simp [mainResult, processJobs, getUsageData, hj, hc, hj2, hc2]

/-- Witness for `jobs_passthrough`: two jobs-mode option records differing
in all of user/department/faculty/sort, and two different directories. -/
theorem jobs_passthrough_witness :
    (⟨true, false, false, false, false, false, false⟩ : Options).jobs = true ∧
    (⟨true, false, false, false, false, false, false⟩ : Options).cpuTime = false ∧
    (⟨true, false, false, true, true, true, true⟩ : Options).jobs = true ∧
    (⟨true, false, false, true, true, true, true⟩ : Options).cpuTime = false ∧
    (mainResult ⟨true, false, false, false, false, false, false⟩ ⟨2023, 1, 1⟩ ⟨2023, 2, 1⟩
        (fun _ _ => [⟨some "bob", "X", (1 : Rat)⟩]) (fun _ _ => []) =
      ProgramResult.jobs [⟨some "bob", "X", (1 : Rat)⟩] ∧
    mainResult ⟨true, false, false, true, true, true, true⟩ ⟨2023, 1, 1⟩ ⟨2023, 2, 1⟩
        (fun _ _ => [⟨some "bob", "X", (1 : Rat)⟩]) (fun _ _ => [⟨"x", "n", none, none, 0⟩]) =
      mainResult ⟨true, false, false, false, false, false, false⟩ ⟨2023, 1, 1⟩ ⟨2023, 2, 1⟩
        (fun _ _ => [⟨some "bob", "X", (1 : Rat)⟩]) (fun _ _ => [])) :=
  ⟨rfl, rfl, rfl, rfl,
    jobs_passthrough ⟨true, false, false, false, false, false, false⟩
      ⟨true, false, false, true, true, true, true⟩ ⟨2023, 1, 1⟩ ⟨2023, 2, 1⟩
      (fun _ _ => [⟨some "bob", "X", (1 : Rat)⟩]) (fun _ _ => [])
      (fun _ _ => [⟨"x", "n", none, none, 0⟩]) rfl rfl rfl rfl⟩

end Slurmacc
